import Mathlib

/-!
Verification of the LSB steganography codec of StegaCipher
(src/server/services/steganography.ts), shallowly embedded over raw
RGBA pixel buffers.

A buffer is a `List Nat` of byte values (each < 256 for a real buffer).
The raster decode/encode boundary (the sharp library) is outside the
codec: per the spec, the codec consumes and produces raw per-pixel
byte buffers, so `encodeMessage` / `decodeMessage` below are the
byte-buffer cores of the source functions of the same names.  The AES
block cipher and the random IV source (node crypto) are likewise
external: they enter the model as explicit function / value parameters
`aesEnc`, `aesDec`, `iv`, while the envelope construction around them
(hex rendering, the colon separator, the split on decrypt) is
translated from the source.
-/

namespace StegaCipher

set_option maxRecDepth 100000

/-- Errors raised by the codec (steganography.ts lines 35 and 123). -/
inductive StegError where
  | capacityExceeded (maxBytes requiredBytes : Nat)
  | noMessageFound
deriving DecidableEq

instance {ε α : Type} [DecidableEq ε] [DecidableEq α] : DecidableEq (Except ε α) := fun x y =>
  match x, y with
  | .ok a, .ok b =>
    match decEq a b with
    | .isTrue h => .isTrue (by rw [h])
    | .isFalse h => .isFalse (fun hc => h (Except.ok.inj hc))
  | .error a, .error b =>
    match decEq a b with
    | .isTrue h => .isTrue (by rw [h])
    | .isFalse h => .isFalse (fun hc => h (Except.error.inj hc))
  | .ok _, .error _ => .isFalse (fun hc => Except.noConfusion hc)
  | .error _, .ok _ => .isFalse (fun hc => Except.noConfusion hc)

/-- Byte offset targeted for bit index `i`
(line 48: `Math.floor(bitIndex / 3) * 4 + (bitIndex % 3)`). -/
def bitOffset (i : Nat) : Nat := i / 3 * 4 + i % 3

/-- Store of one message bit into the low bit of a channel byte
(line 51: `(modifiedData[pixelIndex] & 0xFE) | messageBit`). -/
def setBit (b bit : Nat) : Nat := (b &&& 0xFE) ||| bit

/-- MSB-first bits of one message byte
(lines 46 to 47: `(byte >> (7 - bit)) & 1` for `bit = 0 .. 7`). -/
def byteBits (b : Nat) : List Nat :=
  (List.range 8).map (fun bit => (b >>> (7 - bit)) &&& 1)

/-- The full bit stream of a byte sequence, bytes in order, MSB first
(the nested loop of lines 43 to 47). -/
def msgBits : List Nat → List Nat
  | [] => []
  | b :: rest => byteBits b ++ msgBits rest

/-- The embedding loop of lines 42 to 54: starting at bit index `i`,
write each bit of `bits` into the low bit of the byte at
`bitOffset` of the running index. -/
def embedFrom (data : List Nat) (bits : List Nat) (i : Nat) : List Nat :=
  match bits with
  | [] => data
  | b :: rest =>
    embedFrom (data.set (bitOffset i) (setBit (data.getD (bitOffset i) 0) b)) rest (i + 1)

/-- The message actually embedded: the ciphertext envelope when a key
was supplied, the plaintext otherwise (lines 15 to 18).  The optional
encryption step is the corresponding partial application of
`encryptMessage`. -/
def processedMessage (encStep : Option (List Nat → List Nat)) (msg : List Nat) : List Nat :=
  match encStep with
  | none => msg
  | some e => e msg

/-- The framed message: processed message plus the 0x00 delimiter
(lines 21 to 22). -/
def framedMessage (encStep : Option (List Nat → List Nat)) (msg : List Nat) : List Nat :=
  processedMessage encStep msg ++ [0]

/-- Byte-buffer core of `encodeMessage` (lines 8 to 71).  `data` is the
raw RGBA buffer produced by the raster boundary; capacity is
`Math.floor((data.length / 4) * 3)` bits (line 31), i.e. `3 * L / 4`
rounded down; on overflow the error of line 35 reports
`floor(capacity / 8)` and the framed byte length.  Otherwise the framed
bits are embedded into a copy of the buffer (lines 39 to 54) and the
modified copy is returned (the PNG re-encode of lines 57 to 65 is the
external raster boundary). -/
def encodeMessage (encStep : Option (List Nat → List Nat)) (data msg : List Nat) :
    Except StegError (List Nat) :=
  let framed := framedMessage encStep msg
  if framed.length * 8 > 3 * data.length / 4 then
    .error (.capacityExceeded (3 * data.length / 4 / 8) framed.length)
  else
    .ok (embedFrom data (msgBits framed) 0)

/-- Low bit read for bit index `i` of the scan loop (line 96:
`data[pixelIndex + channel] & 1`; an out-of-range read yields 0, as
`undefined & 1` does). -/
def bitAt (data : List Nat) (i : Nat) : Nat := data.getD (bitOffset i) 0 &&& 1

/-- Number of low bits the scan loop of lines 93 to 121 reads: three
per group of four bytes, the final partial group included. -/
def numScannedBits (L : Nat) : Nat := (L + 3) / 4 * 3

/-- MSB-first reassembly of a byte from its bits (line 97:
`currentByte = (currentByte << 1) | lsb`). -/
def bitsToByte (bits : List Nat) : Nat :=
  bits.foldl (fun acc b => (acc <<< 1) ||| b) 0

/-- The `j`-th completed byte of the scan (bits `8*j` to `8*j + 7`,
MSB first). -/
def byteAt (data : List Nat) (j : Nat) : Nat :=
  bitsToByte ((List.range 8).map (fun k => bitAt data (8 * j + k)))

/-- All bytes completed by the scan loop: one per full 8 bits of the
scanned bit stream, trailing bits beyond the last full byte dropped
(lines 100 to 104). -/
def scannedBytes (data : List Nat) : List Nat :=
  (List.range (numScannedBits data.length / 8)).map (byteAt data)

/-- Byte-buffer core of the scan of `decodeMessage` (lines 93 to 123):
the loop returns the bytes before the first completed 0x00 byte, and
raises the error of line 123 when no completed byte is zero. -/
def decodeCore (data : List Nat) : Except StegError (List Nat) :=
  if (0 : Nat) ∈ scannedBytes data then
    .ok ((scannedBytes data).takeWhile (fun b => b != 0))
  else
    .error .noMessageFound

/-- Byte-buffer core of `decodeMessage` (lines 76 to 127): the scanned
payload, run through the optional decryption step (lines 113 to 115).
The optional step is the corresponding partial application of
`decryptMessage`. -/
def decodeMessage (decStep : Option (List Nat → List Nat)) (data : List Nat) :
    Except StegError (List Nat) :=
  (decodeCore data).map (fun B =>
    match decStep with
    | none => B
    | some d => d B)

/-- Lower-case hex digit of a value below 16, as its ASCII code
(Buffer hex rendering used on lines 138 to 141). -/
def hexDigit (n : Nat) : Nat := if n < 10 then 48 + n else 87 + n

/-- Two hex digits of one byte. -/
def hexPair (b : Nat) : List Nat := [hexDigit (b / 16), hexDigit (b % 16)]

/-- Hex rendering of a byte sequence as ASCII codes. -/
def hexEncode : List Nat → List Nat
  | [] => []
  | b :: rest => hexPair b ++ hexEncode rest

/-- Value of one ASCII hex digit. -/
def hexVal (c : Nat) : Nat := if c < 58 then c - 48 else c - 87

/-- Bytes of a hex string given as ASCII codes (Buffer.from(s, hex)). -/
def hexDecode : List Nat → List Nat
  | c1 :: c2 :: rest => (16 * hexVal c1 + hexVal c2) :: hexDecode rest
  | _ => []

/-- `encryptMessage` (lines 132 to 142) with the AES-CBC cipher keyed
by the SHA-256 key hash abstracted as `aesEnc`, and the 16 random IV
bytes of line 135 passed in as `iv`: the envelope is
`ivHex : cipherHex` (58 is the ASCII colon).  Note the source hands
`createCipher` only the key hash; the random IV is merely prefixed. -/
def encryptMessage (aesEnc : List Nat → List Nat) (iv : List Nat) (msg : List Nat) : List Nat :=
  hexEncode iv ++ 58 :: hexEncode (aesEnc msg)

/-- `decryptMessage` (lines 147 to 159) with the AES-CBC decipher keyed
by the SHA-256 key hash abstracted as `aesDec`: the envelope is split
on the first colon (line 151), the IV is parsed from the first half
(line 152) but never handed to `createDecipher` (line 154), which is
keyed by the key hash alone; only the ciphertext half reaches the
decipher. -/
def decryptMessage (aesDec : List Nat → List Nat) (env : List Nat) : List Nat :=
  let ivHex := env.takeWhile (fun c => c != 58)
  let cipherHex := (env.dropWhile (fun c => c != 58)).drop 1
  let _iv := hexDecode ivHex
  aesDec (hexDecode cipherHex)

/-- Which buffer a byte store of `encodeMessage` targets: the caller
input buffer `data`, or the clone `modifiedData` created at line 39. -/
inductive BufTarget where
  | inputBuf
  | cloneBuf
deriving DecidableEq

/-- Trace of the byte stores `encodeMessage` executes, in order: the
only store statement is line 51, which targets `modifiedData` (the
clone) at the mapped offset; when the capacity check of line 34 fails
the loop is never reached and no store happens. -/
def encodeTrace (encStep : Option (List Nat → List Nat)) (data msg : List Nat) :
    List (BufTarget × Nat) :=
  let framed := framedMessage encStep msg
  if framed.length * 8 > 3 * data.length / 4 then
    []
  else
    (List.range (framed.length * 8)).map (fun i => (BufTarget.cloneBuf, bitOffset i))

/-! ### Helper lemmas: list indexing -/

theorem getD_set_ne (l : List Nat) (n j a : Nat) (h : n ≠ j) :
    (l.set n a).getD j 0 = l.getD j 0 := by
  induction l generalizing n j with
  | nil => simp
  | cons x xs ih =>
    cases n with
    | zero => cases j with
      | zero => exact absurd rfl h
      | succ j2 => simp [List.set]
    | succ n2 => cases j with
      | zero => simp [List.set]
      | succ j2 => simpa [List.set] using ih n2 j2 (by omega)

theorem getD_set_self (l : List Nat) (n a : Nat) (h : n < l.length) :
    (l.set n a).getD n 0 = a := by
  induction l generalizing n with
  | nil => simp at h
  | cons x xs ih =>
    cases n with
    | zero => simp [List.set]
    | succ n2 => simpa [List.set] using ih n2 (by simpa using h)

theorem set_getD_self (l : List Nat) (n : Nat) : l.set n (l.getD n 0) = l := by
  induction l generalizing n with
  | nil => simp
  | cons x xs ih =>
    cases n with
    | zero => simp [List.set]
    | succ n2 => simpa [List.set, List.getD] using ih n2

theorem getD_map_range (f : Nat → Nat) (n i : Nat) (h : i < n) :
    ((List.range n).map f).getD i 0 = f i := by
  rw [List.getD_eq_getElem _ _ (by simpa using h)]
  simp

theorem getD_mem (l : List Nat) (i : Nat) (h : i < l.length) : l.getD i 0 ∈ l := by
  rw [List.getD_eq_getElem _ _ h]
  exact List.getElem_mem h

/-! ### Helper lemmas: the offset map and single-bit arithmetic -/

theorem bitOffset_mod4 (i : Nat) : bitOffset i % 4 = i % 3 := by
  unfold bitOffset; omega

theorem bitOffset_div4 (i : Nat) : bitOffset i / 4 = i / 3 := by
  unfold bitOffset; omega

theorem bitOffset_inj {i j : Nat} (h : bitOffset i = bitOffset j) : i = j := by
  unfold bitOffset at h; omega

theorem bitOffset_lt {i L : Nat} (h4 : 4 ∣ L) (h : i < 3 * L / 4) : bitOffset i < L := by
  unfold bitOffset; omega

theorem setBit_fin_facts :
    ∀ (b : Fin 256) (v : Fin 2),
      setBit b.val v.val / 2 = b.val / 2
      ∧ setBit b.val v.val &&& 1 = v.val
      ∧ setBit b.val (b.val &&& 1) = b.val
      ∧ bitsToByte (byteBits b.val) = b.val := by decide

theorem setBit_div2 {b v : Nat} (hb : b < 256) (hv : v ≤ 1) : setBit b v / 2 = b / 2 :=
  (setBit_fin_facts ⟨b, hb⟩ ⟨v, by omega⟩).1

theorem setBit_and1 {b v : Nat} (hb : b < 256) (hv : v ≤ 1) : setBit b v &&& 1 = v :=
  (setBit_fin_facts ⟨b, hb⟩ ⟨v, by omega⟩).2.1

theorem setBit_lsb_self {b : Nat} (hb : b < 256) : setBit b (b &&& 1) = b :=
  (setBit_fin_facts ⟨b, hb⟩ 0).2.2.1

theorem bitsToByte_byteBits {b : Nat} (hb : b < 256) : bitsToByte (byteBits b) = b :=
  (setBit_fin_facts ⟨b, hb⟩ 0).2.2.2

theorem setBit_lt_256 (b : Nat) {v : Nat} (hv : v ≤ 1) : setBit b v < 256 := by
  have h1 : b &&& 0xFE < 256 := Nat.lt_of_le_of_lt Nat.and_le_right (by norm_num)
  have h2 : v < 256 := by omega
  have := Nat.or_lt_two_pow (n := 8) (by simpa using h1) (by simpa using h2)
  simpa [setBit] using this

theorem and1_le (x : Nat) : x &&& 1 ≤ 1 := Nat.and_le_right


/-! ### Helper lemmas: the embedded bit stream -/

theorem byteBits_length (b : Nat) : (byteBits b).length = 8 := by simp [byteBits]

theorem msgBits_length (m : List Nat) : (msgBits m).length = 8 * m.length := by
  induction m with
  | nil => simp [msgBits]
  | cons b rest ih =>
    show (byteBits b ++ msgBits rest).length = 8 * (rest.length + 1)
    simp [byteBits_length, ih]
    ring

theorem msgBits_le_one (m : List Nat) : ∀ x ∈ msgBits m, x ≤ 1 := by
  induction m with
  | nil => simp [msgBits]
  | cons b rest ih =>
    intro x hx
    rcases List.mem_append.1 hx with h | h
    · simp [byteBits] at h
      obtain ⟨k, hk, rfl⟩ := h
      omega
    · exact ih x h

theorem msgBits_getD (m : List Nat) (j k : Nat) (hj : j < m.length) (hk : k < 8) :
    (msgBits m).getD (8 * j + k) 0 = (m.getD j 0 >>> (7 - k)) &&& 1 := by
  induction m generalizing j with
  | nil => simp at hj
  | cons b rest ih =>
    rw [show msgBits (b :: rest) = byteBits b ++ msgBits rest from rfl]
    cases j with
    | zero =>
      simp only [Nat.mul_zero, Nat.zero_add]
      rw [List.getD_append _ _ _ _ (by rw [byteBits_length]; omega)]
      show (byteBits b).getD k 0 = ((b :: rest).getD 0 0 >>> (7 - k)) &&& 1
      unfold byteBits
      rw [getD_map_range _ 8 k hk]
      rfl
    | succ j2 =>
      rw [show 8 * (j2 + 1) + k = (byteBits b).length + (8 * j2 + k) by rw [byteBits_length]; ring]
      rw [List.getD_append_right _ _ _ _ (by omega)]
      rw [Nat.add_sub_cancel_left]
      exact ih j2 (by simpa using Nat.lt_of_succ_lt_succ (by simpa using hj))

/-! ### Helper lemmas: the embedding loop -/

theorem embedFrom_cons (data : List Nat) (b : Nat) (rest : List Nat) (i : Nat) :
    embedFrom data (b :: rest) i =
      embedFrom (data.set (bitOffset i) (setBit (data.getD (bitOffset i) 0) b)) rest (i + 1) := rfl

theorem embedFrom_length (bits : List Nat) (data : List Nat) (i : Nat) :
    (embedFrom data bits i).length = data.length := by
  induction bits generalizing data i with
  | nil => rfl
  | cons b rest ih => rw [embedFrom_cons, ih, List.length_set]

theorem embedFrom_getD_untouched (bits : List Nat) (data : List Nat) (i0 j : Nat)
    (h : ∀ k, k < bits.length → bitOffset (i0 + k) ≠ j) :
    (embedFrom data bits i0).getD j 0 = data.getD j 0 := by
  induction bits generalizing data i0 with
  | nil => rfl
  | cons b rest ih =>
    rw [embedFrom_cons]
    rw [ih _ (i0 + 1) (fun k hk => by
      have := h (k + 1) (by simp; omega)
      rwa [show i0 + (k + 1) = i0 + 1 + k by omega] at this)]
    exact getD_set_ne _ _ _ _ (by simpa using h 0 (by simp))

theorem embedFrom_getD_write (bits : List Nat) (data : List Nat) (i0 k : Nat)
    (hk : k < bits.length) (hoff : bitOffset (i0 + k) < data.length) :
    (embedFrom data bits i0).getD (bitOffset (i0 + k)) 0 =
      setBit (data.getD (bitOffset (i0 + k)) 0) (bits.getD k 0) := by
  induction bits generalizing data i0 k with
  | nil => simp at hk
  | cons b rest ih =>
    rw [embedFrom_cons]
    cases k with
    | zero =>
      simp only [Nat.add_zero] at hoff ⊢
      rw [embedFrom_getD_untouched rest _ (i0 + 1) _ (fun k2 hk2 he => by
        have := bitOffset_inj he; omega)]
      exact getD_set_self _ _ _ hoff
    | succ k2 =>
      rw [show i0 + (k2 + 1) = i0 + 1 + k2 by omega] at hoff ⊢
      rw [ih _ (i0 + 1) k2 (by simpa using Nat.lt_of_succ_lt_succ (by simpa using hk))
        (by rwa [List.length_set])]
      rw [getD_set_ne _ _ _ _ (fun he => by have := bitOffset_inj he; omega)]
      rfl

theorem embedFrom_getD_div2 (bits : List Nat) (data : List Nat) (i0 : Nat)
    (hb : ∀ x ∈ bits, x ≤ 1) (hdata : ∀ x ∈ data, x < 256) (j : Nat) :
    (embedFrom data bits i0).getD j 0 / 2 = data.getD j 0 / 2 := by
  induction bits generalizing data i0 with
  | nil => rfl
  | cons b rest ih =>
    have hb0 : b ≤ 1 := hb b (by simp)
    have hd2 : ∀ x ∈ data.set (bitOffset i0) (setBit (data.getD (bitOffset i0) 0) b), x < 256 := by
      intro x hx
      rcases List.mem_or_eq_of_mem_set hx with h | h
      · exact hdata x h
      · rw [h]; exact setBit_lt_256 _ hb0
    have step : (data.set (bitOffset i0) (setBit (data.getD (bitOffset i0) 0) b)).getD j 0 / 2 =
        data.getD j 0 / 2 := by
      by_cases hoj : bitOffset i0 = j
      · subst hoj
        by_cases hlt : bitOffset i0 < data.length
        · rw [getD_set_self _ _ _ hlt]
          exact setBit_div2 (hdata _ (getD_mem _ _ hlt)) hb0
        · rw [List.set_eq_of_length_le (by omega)]
      · rw [getD_set_ne _ _ _ _ hoj]
    rw [embedFrom_cons, ih _ (i0 + 1) (fun x hx => hb x (by simp [hx])) hd2, step]

theorem embedFrom_id (bits : List Nat) (data : List Nat) (i0 : Nat)
    (hbits : ∀ k, k < bits.length → bits.getD k 0 = bitAt data (i0 + k))
    (hdata : ∀ x ∈ data, x < 256) :
    embedFrom data bits i0 = data := by
  induction bits generalizing i0 with
  | nil => rfl
  | cons b rest ih =>
    have hb : b = data.getD (bitOffset i0) 0 &&& 1 := by
      have := hbits 0 (by simp)
      simpa [bitAt] using this
    have hset : data.set (bitOffset i0) (setBit (data.getD (bitOffset i0) 0) b) = data := by
      by_cases hlt : bitOffset i0 < data.length
      · rw [hb, setBit_lsb_self (hdata _ (getD_mem _ _ hlt))]
        exact set_getD_self data _
      · exact List.set_eq_of_length_le (by omega)
    rw [embedFrom_cons, hset]
    exact ih (i0 + 1) (fun k hk => by
      have := hbits (k + 1) (by simp; omega)
      rwa [show i0 + (k + 1) = i0 + 1 + k by omega] at this)

/-! ### Helper lemmas: the scan loop -/

theorem scannedBytes_length (data : List Nat) :
    (scannedBytes data).length = numScannedBits data.length / 8 := by
  simp [scannedBytes]

theorem scannedBytes_getD (data : List Nat) (j : Nat)
    (hj : j < numScannedBits data.length / 8) :
    (scannedBytes data).getD j 0 = byteAt data j :=
  getD_map_range _ _ _ hj

theorem takeWhile_eq_take (l : List Nat) (n : Nat) (hn : n < l.length)
    (hk : ∀ k, k < n → l.getD k 0 ≠ 0) (h0 : l.getD n 0 = 0) :
    l.takeWhile (fun b => b != 0) = l.take n := by
  induction l generalizing n with
  | nil => simp at hn
  | cons x xs ih =>
    cases n with
    | zero =>
      have hx : x = 0 := by simpa [List.getD] using h0
      subst hx
      simp [List.takeWhile]
    | succ n2 =>
      have hx : x ≠ 0 := by simpa [List.getD] using hk 0 (by omega)
      simp only [List.takeWhile, List.take]
      rw [show (x != 0) = true by simpa using hx]
      simp only [cond_true, List.cons.injEq, true_and]
      exact ih n2 (by simpa using hn)
        (fun k hk2 => by simpa [List.getD] using hk (k + 1) (by omega))
        (by simpa [List.getD] using h0)

theorem bitAt_le_one (data : List Nat) (i : Nat) : bitAt data i ≤ 1 := and1_le _

theorem bitsToByte_bit_fin :
    ∀ (b0 b1 b2 b3 b4 b5 b6 b7 : Fin 2) (r : Fin 8),
      ((bitsToByte [b0.val, b1.val, b2.val, b3.val, b4.val, b5.val, b6.val, b7.val]) >>>
          (7 - r.val)) &&& 1 =
        [b0.val, b1.val, b2.val, b3.val, b4.val, b5.val, b6.val, b7.val].getD r.val 0 := by
  decide

theorem range_eight : List.range 8 = [0, 1, 2, 3, 4, 5, 6, 7] := by rfl

theorem bit_of_byteAt (data : List Nat) (j r : Nat) (hr : r < 8) :
    (byteAt data j >>> (7 - r)) &&& 1 = bitAt data (8 * j + r) := by
  unfold byteAt
  rw [range_eight]
  have h := bitsToByte_bit_fin
    ⟨bitAt data (8 * j + 0), by have := bitAt_le_one data (8 * j + 0); omega⟩
    ⟨bitAt data (8 * j + 1), by have := bitAt_le_one data (8 * j + 1); omega⟩
    ⟨bitAt data (8 * j + 2), by have := bitAt_le_one data (8 * j + 2); omega⟩
    ⟨bitAt data (8 * j + 3), by have := bitAt_le_one data (8 * j + 3); omega⟩
    ⟨bitAt data (8 * j + 4), by have := bitAt_le_one data (8 * j + 4); omega⟩
    ⟨bitAt data (8 * j + 5), by have := bitAt_le_one data (8 * j + 5); omega⟩
    ⟨bitAt data (8 * j + 6), by have := bitAt_le_one data (8 * j + 6); omega⟩
    ⟨bitAt data (8 * j + 7), by have := bitAt_le_one data (8 * j + 7); omega⟩
    ⟨r, hr⟩
  simp only [List.map]
  rw [h]
  interval_cases r <;> rfl

/-! ### Round trip: reading back an embedded message -/

theorem bitAt_embed (data m : List Nat) (h4 : 4 ∣ data.length)
    (hdata : ∀ x ∈ data, x < 256)
    (hcap : m.length * 8 ≤ 3 * data.length / 4)
    (i : Nat) (hi : i < (msgBits m).length) :
    bitAt (embedFrom data (msgBits m) 0) i = (msgBits m).getD i 0 := by
  have hlen : (msgBits m).length = 8 * m.length := msgBits_length m
  have hoff : bitOffset (0 + i) < data.length := by
    apply bitOffset_lt h4
    omega
  unfold bitAt
  rw [show i = 0 + i by omega]
  rw [embedFrom_getD_write (msgBits m) data 0 i (by omega) hoff]
  rw [setBit_and1 (hdata _ (getD_mem _ _ hoff)) (msgBits_le_one m _ (getD_mem _ _ (by omega)))]
  rw [Nat.zero_add]

theorem byteAt_embed (data m : List Nat) (h4 : 4 ∣ data.length)
    (hdata : ∀ x ∈ data, x < 256) (hm : ∀ x ∈ m, x < 256)
    (hcap : m.length * 8 ≤ 3 * data.length / 4)
    (j : Nat) (hj : j < m.length) :
    byteAt (embedFrom data (msgBits m) 0) j = m.getD j 0 := by
  have hmap : (List.range 8).map (fun k => bitAt (embedFrom data (msgBits m) 0) (8 * j + k)) =
      byteBits (m.getD j 0) := by
    unfold byteBits
    apply List.map_congr_left
    intro k hk
    have hk8 : k < 8 := List.mem_range.1 hk
    have hik : 8 * j + k < (msgBits m).length := by rw [msgBits_length]; omega
    rw [bitAt_embed data m h4 hdata hcap _ hik]
    exact msgBits_getD m j k hj hk8
  unfold byteAt
  rw [hmap, bitsToByte_byteBits (hm _ (getD_mem _ _ hj))]

theorem decodeCore_embed (data m : List Nat) (h4 : 4 ∣ data.length)
    (hdata : ∀ x ∈ data, x < 256) (hm : ∀ x ∈ m, x < 256) (hnz : (0 : Nat) ∉ m)
    (hcap : (m.length + 1) * 8 ≤ 3 * data.length / 4) :
    decodeCore (embedFrom data (msgBits (m ++ [0])) 0) = .ok m := by
  have hframed256 : ∀ x ∈ m ++ [0], x < 256 := by
    intro x hx
    rcases List.mem_append.1 hx with h | h
    · exact hm x h
    · simp at h; omega
  have hflen : (m ++ [0]).length = m.length + 1 := by simp
  have hlemb : (embedFrom data (msgBits (m ++ [0])) 0).length = data.length :=
    embedFrom_length _ _ _
  obtain ⟨q, hq⟩ := h4
  have hns : numScannedBits (embedFrom data (msgBits (m ++ [0])) 0).length =
      3 * data.length / 4 := by
    unfold numScannedBits; omega
  have hbyte : ∀ j, j < m.length + 1 →
      byteAt (embedFrom data (msgBits (m ++ [0])) 0) j = (m ++ [0]).getD j 0 := by
    intro j hj
    exact byteAt_embed data (m ++ [0]) ⟨q, hq⟩ hdata hframed256 (by omega) j (by omega)
  have hscanlen : (scannedBytes (embedFrom data (msgBits (m ++ [0])) 0)).length =
      numScannedBits (embedFrom data (msgBits (m ++ [0])) 0).length / 8 :=
    scannedBytes_length _
  have hgz : (scannedBytes (embedFrom data (msgBits (m ++ [0])) 0)).getD m.length 0 = 0 := by
    rw [scannedBytes_getD (embedFrom data (msgBits (m ++ [0])) 0) m.length (by omega)]
    rw [hbyte m.length (by omega)]
    rw [List.getD_append_right _ _ _ _ (le_refl _)]
    simp
  have hgnz : ∀ k, k < m.length →
      (scannedBytes (embedFrom data (msgBits (m ++ [0])) 0)).getD k 0 ≠ 0 := by
    intro k hkm
    rw [scannedBytes_getD (embedFrom data (msgBits (m ++ [0])) 0) k (by omega),
        hbyte k (by omega), List.getD_append _ _ _ _ hkm]
    intro hzero
    exact hnz (hzero ▸ getD_mem m k hkm)
  have hmem : (0 : Nat) ∈ scannedBytes (embedFrom data (msgBits (m ++ [0])) 0) := by
    have h := getD_mem (scannedBytes (embedFrom data (msgBits (m ++ [0])) 0)) m.length
      (by rw [hscanlen]; omega)
    rw [hgz] at h
    exact h
  unfold decodeCore
  rw [if_pos hmem]
  congr 1
  rw [takeWhile_eq_take (scannedBytes (embedFrom data (msgBits (m ++ [0])) 0)) m.length
    (by rw [hscanlen]; omega) hgnz hgz]
  apply List.ext_getElem
  · rw [List.length_take]; omega
  · intro j h1 h2
    rw [List.getElem_take]
    have hjm : j < m.length := by rw [List.length_take] at h1; omega
    have : (scannedBytes (embedFrom data (msgBits (m ++ [0])) 0)).getD j 0 = m.getD j 0 := by
      rw [scannedBytes_getD (embedFrom data (msgBits (m ++ [0])) 0) j (by omega),
          hbyte j (by omega), List.getD_append _ _ _ _ hjm]
    rw [← List.getD_eq_getElem _ 0, ← List.getD_eq_getElem _ 0]
    exact this

/-! ### Helper lemmas: encode entry point -/

theorem framedMessage_none (m : List Nat) : framedMessage none m = m ++ [0] := rfl

theorem framedMessage_length (encStep : Option (List Nat → List Nat)) (m : List Nat) :
    (framedMessage encStep m).length = (processedMessage encStep m).length + 1 := by
  simp [framedMessage]

theorem encodeMessage_eq_ok (encStep : Option (List Nat → List Nat)) (data msg : List Nat)
    (h : (framedMessage encStep msg).length * 8 ≤ 3 * data.length / 4) :
    encodeMessage encStep data msg =
      .ok (embedFrom data (msgBits (framedMessage encStep msg)) 0) := by
  unfold encodeMessage
  rw [if_neg (by omega)]

theorem encodeMessage_eq_error (encStep : Option (List Nat → List Nat)) (data msg : List Nat)
    (h : (framedMessage encStep msg).length * 8 > 3 * data.length / 4) :
    encodeMessage encStep data msg =
      .error (.capacityExceeded (3 * data.length / 4 / 8) (framedMessage encStep msg).length) := by
  unfold encodeMessage
  rw [if_pos (by omega)]

theorem encodeMessage_ok_inv (encStep : Option (List Nat → List Nat)) {data msg out : List Nat}
    (h : encodeMessage encStep data msg = .ok out) :
    out = embedFrom data (msgBits (framedMessage encStep msg)) 0
    ∧ (framedMessage encStep msg).length * 8 ≤ 3 * data.length / 4
    ∧ out.length = data.length := by
  by_cases hc : (framedMessage encStep msg).length * 8 ≤ 3 * data.length / 4
  · rw [encodeMessage_eq_ok encStep data msg hc] at h
    have hout := (Except.ok.inj h).symm
    exact ⟨hout, hc, by rw [hout, embedFrom_length]⟩
  · rw [encodeMessage_eq_error encStep data msg (by omega)] at h
    cases h

/-! ### Helper lemmas: reading a buffer back re-encodes to itself -/

theorem dropWhile_mem_zero (l : List Nat) (h : (0 : Nat) ∈ l) :
    ∃ t, l.dropWhile (fun b => b != 0) = 0 :: t := by
  induction l with
  | nil => simp at h
  | cons x xs ih =>
    by_cases hx : x = 0
    · subst hx
      exact ⟨xs, by simp [List.dropWhile]⟩
    · have hm : (0 : Nat) ∈ xs := by
        rcases List.mem_cons.1 h with h1 | h1
        · exact absurd h1.symm hx
        · exact h1
      obtain ⟨t, ht⟩ := ih hm
      refine ⟨t, ?_⟩
      rw [List.dropWhile]
      rw [show (x != 0) = true by simpa using hx]
      exact ht

theorem decodeCore_ok_reencode (data B : List Nat) (h4 : 4 ∣ data.length)
    (hdata : ∀ x ∈ data, x < 256)
    (hok : decodeCore data = .ok B) :
    encodeMessage none data B = .ok data := by
  have hmem : (0 : Nat) ∈ scannedBytes data := by
    by_contra hmem
    unfold decodeCore at hok
    rw [if_neg hmem] at hok
    cases hok
  have hB : B = (scannedBytes data).takeWhile (fun b => b != 0) := by
    unfold decodeCore at hok
    rw [if_pos hmem] at hok
    exact (Except.ok.inj hok).symm
  obtain ⟨t, ht⟩ := dropWhile_mem_zero (scannedBytes data) hmem
  have hsplit : scannedBytes data = B ++ 0 :: t := by
    rw [hB, ← ht]
    exact (List.takeWhile_append_dropWhile _ _).symm
  have hslen : (scannedBytes data).length = B.length + (t.length + 1) := by
    rw [hsplit]; simp
  have hscan : (scannedBytes data).length = numScannedBits data.length / 8 :=
    scannedBytes_length data
  obtain ⟨q, hq⟩ := h4
  have hns : numScannedBits data.length = 3 * data.length / 4 := by
    unfold numScannedBits; omega
  have hcap : (B.length + 1) * 8 ≤ 3 * data.length / 4 := by omega
  have hbits : ∀ k, k < (msgBits (B ++ [0])).length →
      (msgBits (B ++ [0])).getD k 0 = bitAt data (0 + k) := by
    intro k hk
    rw [msgBits_length] at hk
    have hk2 : k < 8 * (B.length + 1) := by simpa using hk
    have hjlt : k / 8 < B.length + 1 := by omega
    have hsb : (B ++ [0]).getD (k / 8) 0 = byteAt data (k / 8) := by
      have h1 : (scannedBytes data).getD (k / 8) 0 = byteAt data (k / 8) :=
        scannedBytes_getD data (k / 8) (by omega)
      rw [hsplit] at h1
      by_cases hj : k / 8 < B.length
      · rw [List.getD_append _ _ _ _ hj] at h1
        rw [List.getD_append _ _ _ _ hj]
        exact h1
      · have hjeq : k / 8 = B.length := by omega
        rw [hjeq] at h1 ⊢
        rw [List.getD_append_right _ _ _ _ (le_refl _)] at h1 ⊢
        simpa using h1
    have hk8 : 8 * (k / 8) + k % 8 = k := by omega
    rw [← hk8, msgBits_getD (B ++ [0]) (k / 8) (k % 8) (by simpa using hjlt) (by omega)]
    rw [hsb]
    rw [Nat.zero_add, bit_of_byteAt data (k / 8) (k % 8) (by omega)]
  rw [encodeMessage_eq_ok none data B (by rw [framedMessage_none]; simp; omega)]
  rw [framedMessage_none]
  congr 1
  exact embedFrom_id (msgBits (B ++ [0])) data 0 hbits hdata

/-! ### Helper lemmas: hex rendering and the cipher envelope -/

theorem hexDigit_lt (n : Nat) (h : n < 16) : hexDigit n < 256 := by
  unfold hexDigit; split <;> omega

theorem hexDigit_ne_zero (n : Nat) : hexDigit n ≠ 0 := by
  unfold hexDigit; split <;> omega

theorem hexDigit_ne_58 (n : Nat) : hexDigit n ≠ 58 := by
  unfold hexDigit; split <;> omega

theorem hexVal_hexDigit (n : Nat) (h : n < 16) : hexVal (hexDigit n) = n := by
  unfold hexDigit hexVal
  by_cases h10 : n < 10
  · rw [if_pos h10, if_pos (by omega)]; omega
  · rw [if_neg h10, if_neg (by omega)]; omega

theorem hexEncode_cons (b : Nat) (rest : List Nat) :
    hexEncode (b :: rest) = hexDigit (b / 16) :: hexDigit (b % 16) :: hexEncode rest := rfl

theorem hexEncode_ne_58 (bs : List Nat) : ∀ c ∈ hexEncode bs, c ≠ 58 := by
  induction bs with
  | nil => simp [hexEncode]
  | cons b rest ih =>
    intro c hc
    rw [hexEncode_cons] at hc
    rcases List.mem_cons.1 hc with h1 | hc2
    · rw [h1]; exact hexDigit_ne_58 _
    rcases List.mem_cons.1 hc2 with h1 | hc3
    · rw [h1]; exact hexDigit_ne_58 _
    · exact ih c hc3

theorem hexEncode_mem (bs : List Nat) (hbs : ∀ b ∈ bs, b < 256) :
    ∀ c ∈ hexEncode bs, c < 256 ∧ c ≠ 0 := by
  induction bs with
  | nil => simp [hexEncode]
  | cons b rest ih =>
    intro c hc
    rw [hexEncode_cons] at hc
    rcases List.mem_cons.1 hc with h1 | hc2
    · rw [h1]
      exact ⟨hexDigit_lt _ (by have := hbs b (by simp); omega), hexDigit_ne_zero _⟩
    rcases List.mem_cons.1 hc2 with h1 | hc3
    · rw [h1]
      exact ⟨hexDigit_lt _ (by omega), hexDigit_ne_zero _⟩
    · exact ih (fun x hx => hbs x (by simp [hx])) c hc3

theorem hexDecode_hexEncode (bs : List Nat) (hbs : ∀ b ∈ bs, b < 256) :
    hexDecode (hexEncode bs) = bs := by
  induction bs with
  | nil => rfl
  | cons b rest ih =>
    rw [hexEncode_cons]
    show (16 * hexVal (hexDigit (b / 16)) + hexVal (hexDigit (b % 16))) :: hexDecode (hexEncode rest)
      = b :: rest
    rw [hexVal_hexDigit _ (by have := hbs b (by simp); omega),
        hexVal_hexDigit _ (by omega),
        ih (fun x hx => hbs x (by simp [hx]))]
    congr 1
    omega

theorem takeWhile_append_cons (l1 : List Nat) (y : Nat) (l2 : List Nat) (p : Nat → Bool)
    (h1 : ∀ x ∈ l1, p x = true) (hy : p y = false) :
    (l1 ++ y :: l2).takeWhile p = l1 := by
  induction l1 with
  | nil => simp [List.takeWhile, hy]
  | cons a l ih =>
    rw [List.cons_append, List.takeWhile, h1 a (by simp)]
    rw [ih (fun x hx => h1 x (by simp [hx]))]

theorem dropWhile_append_cons (l1 : List Nat) (y : Nat) (l2 : List Nat) (p : Nat → Bool)
    (h1 : ∀ x ∈ l1, p x = true) (hy : p y = false) :
    (l1 ++ y :: l2).dropWhile p = y :: l2 := by
  induction l1 with
  | nil => simp [List.dropWhile, hy]
  | cons a l ih =>
    rw [List.cons_append, List.dropWhile, h1 a (by simp)]
    exact ih (fun x hx => h1 x (by simp [hx]))

theorem decryptMessage_encryptMessage (aesE aesD : List Nat → List Nat) (iv m : List Nat)
    (hc : ∀ b ∈ aesE m, b < 256) :
    decryptMessage aesD (encryptMessage aesE iv m) = aesD (aesE m) := by
  unfold decryptMessage encryptMessage
  rw [takeWhile_append_cons _ 58 _ _
        (fun x hx => by simpa using hexEncode_ne_58 iv x hx) (by simp),
      dropWhile_append_cons _ 58 _ _
        (fun x hx => by simpa using hexEncode_ne_58 iv x hx) (by simp)]
  rw [List.drop_succ_cons, List.drop_zero]
  show aesD (hexDecode (hexEncode (aesE m))) = aesD (aesE m)
  rw [hexDecode_hexEncode _ hc]

theorem envelope_mem (aesE : List Nat → List Nat) (iv m : List Nat)
    (hiv : ∀ b ∈ iv, b < 256) (hc : ∀ b ∈ aesE m, b < 256) :
    ∀ x ∈ encryptMessage aesE iv m, x < 256 ∧ x ≠ 0 := by
  intro x hx
  unfold encryptMessage at hx
  rcases List.mem_append.1 hx with h | h
  · exact hexEncode_mem iv hiv x h
  rcases List.mem_cons.1 h with h1 | h2
  · rw [h1]; exact ⟨by omega, by omega⟩
  · exact hexEncode_mem _ hc x h2
theorem encodeMessage_isOk_iff (encStep : Option (List Nat → List Nat)) (data msg : List Nat) :
    (encodeMessage encStep data msg).isOk = true ↔
      (framedMessage encStep msg).length * 8 ≤ 3 * data.length / 4 := by
  constructor
  · intro h
    by_contra hc
    rw [encodeMessage_eq_error encStep data msg (by omega)] at h
    simp [Except.isOk, Except.toBool] at h
  · intro h
    rw [encodeMessage_eq_ok encStep data msg h]
    rfl

/-! ### Claim theorems -/

/-- C5: for every 0-based bit index `i` the embedding loop targets byte
offset `floor(i / 3) * 4 + i % 3`; that offset taken mod 4 equals
`i % 3`, which is always 0, 1 or 2 (an R, G or B byte, never the alpha
byte at residue 3); the pixel number is `i / 3`; and consecutive bit
indices step through the three colour channels of a pixel and then on
to the next pixel, i.e. in R,G,B,R,G,B order. -/
theorem bitOffset_mapping (i : Nat) :
    bitOffset i = i / 3 * 4 + i % 3
    ∧ bitOffset i % 4 = i % 3
    ∧ i % 3 < 3
    ∧ bitOffset i / 4 = i / 3
    ∧ bitOffset (i + 1) = bitOffset i + (if i % 3 = 2 then 2 else 1) := by
  refine ⟨rfl, bitOffset_mod4 i, by omega, bitOffset_div4 i, ?_⟩
  unfold bitOffset
  split <;> omega

/-- C6: for every byte value and bit value, `setBit` computes
`(byte &&& 0xFE) ||| bit`, preserving the seven high bits (the
quotient by 2) and moving the byte by at most 1 in either direction;
consequently every byte of the buffer returned by `encodeMessage`
differs from the corresponding input byte by at most 1 and agrees with
it on the seven high bits. -/
theorem setBit_perturbation (b v : Nat) (hb : b < 256) (hv : v ≤ 1) :
    setBit b v = (b &&& 0xFE) ||| v
    ∧ setBit b v / 2 = b / 2
    ∧ setBit b v ≤ b + 1 ∧ b ≤ setBit b v + 1
    ∧ ∀ (encStep : Option (List Nat → List Nat)) (data msg out : List Nat),
        (∀ x ∈ data, x < 256) → encodeMessage encStep data msg = .ok out →
        ∀ j, out.getD j 0 / 2 = data.getD j 0 / 2
          ∧ out.getD j 0 ≤ data.getD j 0 + 1 ∧ data.getD j 0 ≤ out.getD j 0 + 1 := by
  have hdiv := setBit_div2 hb hv
  refine ⟨rfl, hdiv, by omega, by omega, ?_⟩
  intro encStep data msg out hdata hok j
  obtain ⟨hout, _, _⟩ := encodeMessage_ok_inv encStep hok
  have hd2 : out.getD j 0 / 2 = data.getD j 0 / 2 := by
    rw [hout]
    exact embedFrom_getD_div2 _ data 0 (msgBits_le_one _) hdata j
  exact ⟨hd2, by omega, by omega⟩

/-- C7: the embedding loop only ever writes offsets whose residue
mod 4 is below 3, so every alpha byte (offset residue 3) of the buffer
returned by `encodeMessage` equals the corresponding alpha byte of the
input buffer, for every input, message and key. -/
theorem alpha_preserved (encStep : Option (List Nat → List Nat)) (data msg out : List Nat)
    (hok : encodeMessage encStep data msg = .ok out) (j : Nat) (hj : j % 4 = 3) :
    out.getD j 0 = data.getD j 0 := by
  obtain ⟨hout, _, _⟩ := encodeMessage_ok_inv encStep hok
  rw [hout]
  apply embedFrom_getD_untouched
  intro k hk he
  have := bitOffset_mod4 (0 + k)
  omega

/-- C2: `encodeMessage` succeeds exactly when the framed byte length
times 8 is at most `floor(pixelCount) * 3` capacity bits; on failure
it reports `maxBytes = floor(capacityBits / 8)` and the framed byte
length as `requiredBytes`; in particular a 40-byte message in a
10 x 10 four-channel buffer fails with maxBytes 37, requiredBytes 41. -/
theorem capacity_gate (encStep : Option (List Nat → List Nat)) (data msg : List Nat)
    (h4 : 4 ∣ data.length) :
    ((encodeMessage encStep data msg).isOk = true ↔
      (framedMessage encStep msg).length * 8 ≤ data.length / 4 * 3)
    ∧ ((framedMessage encStep msg).length * 8 > data.length / 4 * 3 →
        encodeMessage encStep data msg =
          .error (.capacityExceeded (data.length / 4 * 3 / 8)
            (framedMessage encStep msg).length))
    ∧ encodeMessage none (List.replicate 400 0) (List.replicate 40 97) =
        .error (.capacityExceeded 37 41) := by
  have hcap : data.length / 4 * 3 = 3 * data.length / 4 := by omega
  refine ⟨?_, ?_, by decide⟩
  · rw [hcap]
    exact encodeMessage_isOk_iff encStep data msg
  · intro h
    rw [encodeMessage_eq_error encStep data msg (by omega), hcap]

/-- C9 counterexample: `encodeMessage` accepts an empty message (it
frames it as the lone terminator byte and embeds it, succeeding), and
likewise accepts a pixel buffer whose length is not a multiple of 4;
the claim says both fail with a MalformedInput error. -/
theorem malformed_input_counterexample :
    encodeMessage none (List.replicate 24 0) [] = .ok (List.replicate 24 0)
    ∧ encodeMessage none (List.replicate 21 0) [] = .ok (List.replicate 21 0) :=
  ⟨by decide, by decide⟩

/-- C9 amended: `encodeMessage` performs no malformed-input
validation: for every buffer, of any length, and every message it
succeeds exactly when the framed message fits the bit capacity, so an
empty message is embedded (succeeding whenever its 8 framed bits fit)
rather than rejected, and a buffer length that is not a multiple of 4
is not rejected either. -/
theorem malformed_input_amended (data msg : List Nat) :
    ((encodeMessage none data msg).isOk = true ↔ (msg.length + 1) * 8 ≤ 3 * data.length / 4)
    ∧ ((encodeMessage none data []).isOk = true ↔ 8 ≤ 3 * data.length / 4) := by
  constructor
  · rw [encodeMessage_isOk_iff none data msg, framedMessage_none]
    simp
  · rw [encodeMessage_isOk_iff none data [], framedMessage_none]
    simp

/-- C4: every byte store in the write trace of `encodeMessage` targets
the clone `modifiedData`, never the caller input buffer, and whenever
`encodeMessage` fails the trace is empty: the capacity check runs
before any write, so on failure zero bytes of any caller-visible
buffer are modified. -/
theorem encode_writes_clone_only (encStep : Option (List Nat → List Nat)) (data msg : List Nat) :
    (∀ e ∈ encodeTrace encStep data msg, e.1 = BufTarget.cloneBuf)
    ∧ (∀ err, encodeMessage encStep data msg = .error err →
        encodeTrace encStep data msg = []) := by
  constructor
  · intro e he
    unfold encodeTrace at he
    by_cases hc : (framedMessage encStep msg).length * 8 > 3 * data.length / 4
    · rw [if_pos hc] at he
      simp at he
    · rw [if_neg hc] at he
      simp at he
      obtain ⟨i, hi, rfl⟩ := he
      rfl
  · intro err herr
    unfold encodeTrace
    by_cases hc : (framedMessage encStep msg).length * 8 > 3 * data.length / 4
    · rw [if_pos hc]
    · rw [encodeMessage_eq_ok encStep data msg (by omega)] at herr
      cases herr

/-- C4 witness: in a concrete successful encode every traced store
targets the clone, and in a concrete failing encode the trace is
empty. -/
theorem encode_writes_clone_only_witness :
    ((encodeTrace none (List.replicate 24 0) [97]).getD 0 (BufTarget.inputBuf, 0)).1
      = BufTarget.cloneBuf
    ∧ encodeTrace none (List.replicate 4 0) [97] = [] :=
  ⟨(encode_writes_clone_only none (List.replicate 24 0) [97]).1 _ (by decide),
   (encode_writes_clone_only none (List.replicate 4 0) [97]).2
     (.capacityExceeded 0 2) (by decide)⟩

/-- C1 counterexample: the round trip fails as universally stated.
First, with no key, a message consisting of the single byte 0x00 fits
capacity (16 of 18 bits) yet decodes to the empty message, because the
scan stops at the first zero byte.  Second, with a key (the cipher
instantiated by an invertible identity cipher, a fresh 16-byte IV),
a 1-byte message fits the claim premise (16 of 18 bits) yet encode
itself fails: the embedded payload is the hex envelope, 36 framed
bytes, far over capacity. -/
theorem roundtrip_counterexample :
    ((1 * 8 + 8 ≤ 3 * (List.replicate 24 0 : List Nat).length / 4)
      ∧ (encodeMessage none (List.replicate 24 0) [0]).bind (decodeMessage none) = .ok []
      ∧ (Except.ok ([] : List Nat) : Except StegError (List Nat)) ≠ .ok [0])
    ∧ ((1 * 8 + 8 ≤ 3 * (List.replicate 24 0 : List Nat).length / 4)
      ∧ id (id [97]) = [97]
      ∧ (encodeMessage (some (encryptMessage id (List.replicate 16 0)))
          (List.replicate 24 0) [97]).bind
          (decodeMessage (some (decryptMessage id))) ≠ .ok [97]) :=
  ⟨⟨by decide, by decide, by decide⟩, ⟨by decide, by decide, by decide⟩⟩

/-- C1 amended: the round trip holds for every message that contains
no 0x00 byte, with the keyed case additionally requiring the framed
ciphertext envelope (not just the plaintext) to fit capacity: for
well-formed buffers (length a multiple of 4, byte values), no-key
decode of a no-key encode returns the message, and for any key whose
cipher inverts (decipher of cipher is the identity on the message)
keyed decode of a keyed encode returns the message whenever the framed
envelope fits the capacity bits. -/
theorem roundtrip_amended (data m : List Nat) (h4 : 4 ∣ data.length)
    (hdata : ∀ x ∈ data, x < 256) (hm : ∀ x ∈ m, x < 256) (hnz : (0 : Nat) ∉ m)
    (hcap : m.length * 8 + 8 ≤ 3 * data.length / 4) :
    ((encodeMessage none data m).bind (decodeMessage none) = .ok m)
    ∧ ∀ (aesE aesD : List Nat → List Nat) (iv : List Nat),
        aesD (aesE m) = m → (∀ b ∈ aesE m, b < 256) → (∀ b ∈ iv, b < 256) →
        ((encryptMessage aesE iv m).length + 1) * 8 ≤ 3 * data.length / 4 →
        (encodeMessage (some (encryptMessage aesE iv)) data m).bind
          (decodeMessage (some (decryptMessage aesD))) = .ok m := by
  constructor
  · rw [encodeMessage_eq_ok none data m (by rw [framedMessage_none]; simp; omega)]
    show decodeMessage none (embedFrom data (msgBits (m ++ [0])) 0) = .ok m
    unfold decodeMessage
    rw [decodeCore_embed data m h4 hdata hm hnz (by omega)]
    rfl
  · intro aesE aesD iv hinv hcb hivb hecap
    have hPmem : ∀ x ∈ encryptMessage aesE iv m, x < 256 :=
      fun x hx => (envelope_mem aesE iv m hivb hcb x hx).1
    have hPnz : (0 : Nat) ∉ encryptMessage aesE iv m :=
      fun hx => (envelope_mem aesE iv m hivb hcb 0 hx).2 rfl
    have hfr : framedMessage (some (encryptMessage aesE iv)) m
        = encryptMessage aesE iv m ++ [0] := rfl
    rw [encodeMessage_eq_ok (some (encryptMessage aesE iv)) data m
      (by rw [hfr]; simp; omega)]
    show decodeMessage (some (decryptMessage aesD))
        (embedFrom data (msgBits (encryptMessage aesE iv m ++ [0])) 0) = .ok m
    unfold decodeMessage
    rw [decodeCore_embed data (encryptMessage aesE iv m) h4 hdata hPmem hPnz (by omega)]
    show Except.ok (decryptMessage aesD (encryptMessage aesE iv m)) = Except.ok m
    rw [decryptMessage_encryptMessage aesE aesD iv m hcb, hinv]

/-- C1 amended witness: a concrete no-key round trip and a concrete
keyed round trip (identity cipher, 16-byte IV, 384-byte buffer whose
capacity exactly fits the 36-byte framed envelope). -/
theorem roundtrip_amended_witness :
    ((encodeMessage none (List.replicate 384 0) [97]).bind (decodeMessage none) = .ok [97])
    ∧ ((encodeMessage (some (encryptMessage id (List.replicate 16 0)))
        (List.replicate 384 0) [97]).bind
        (decodeMessage (some (decryptMessage id))) = .ok [97]) :=
  ⟨(roundtrip_amended (List.replicate 384 0) [97] (by decide) (by decide) (by decide)
      (by decide) (by decide)).1,
   (roundtrip_amended (List.replicate 384 0) [97] (by decide) (by decide) (by decide)
      (by decide) (by decide)).2 id id (List.replicate 16 0)
      (by decide) (by decide) (by decide) (by decide)⟩

/-- C3: the decrypt path parses the IV from the first hex half of the
envelope but never feeds it to the decipher, which the source keys by
the key hash alone; hence the recovered plaintext is identical for any
two stored IVs over the same ciphertext: it does not depend on the
stored IV, contradicting the claim that the parsed IV is the one
actually used for the decryption chaining. -/
theorem decrypt_ignores_iv (aesD : List Nat → List Nat) (iv1 iv2 c : List Nat) :
    decryptMessage aesD (hexEncode iv1 ++ 58 :: c)
      = decryptMessage aesD (hexEncode iv2 ++ 58 :: c) := by
  unfold decryptMessage
  rw [takeWhile_append_cons _ 58 _ _
        (fun x hx => by simpa using hexEncode_ne_58 iv1 x hx) (by simp),
      dropWhile_append_cons _ 58 _ _
        (fun x hx => by simpa using hexEncode_ne_58 iv1 x hx) (by simp),
      takeWhile_append_cons _ 58 _ _
        (fun x hx => by simpa using hexEncode_ne_58 iv2 x hx) (by simp),
      dropWhile_append_cons _ 58 _ _
        (fun x hx => by simpa using hexEncode_ne_58 iv2 x hx) (by simp)]

/-- C8: `decodeMessage` signals NoMessageFound exactly when no byte
completed by the full scan is zero; and a well-formed buffer (length a
multiple of 4, byte values) that is not the output of any encode
always fails with NoMessageFound: if decode succeeded, re-encoding the
decoded message into the buffer itself would reproduce the buffer,
exhibiting it as an encode output. -/
theorem no_message_found_iff (decStep : Option (List Nat → List Nat)) (data : List Nat) :
    (decodeMessage decStep data = .error .noMessageFound ↔ (0 : Nat) ∉ scannedBytes data)
    ∧ (4 ∣ data.length → (∀ x ∈ data, x < 256) →
        (∀ (s : Option (List Nat → List Nat)) (img msg : List Nat),
            encodeMessage s img msg ≠ .ok data) →
        decodeMessage decStep data = .error .noMessageFound) := by
  have hiff : decodeMessage decStep data = .error .noMessageFound
      ↔ (0 : Nat) ∉ scannedBytes data := by
    unfold decodeMessage decodeCore
    by_cases hmem : (0 : Nat) ∈ scannedBytes data
    · rw [if_pos hmem]
      constructor
      · intro h
        simp [Except.map] at h
      · intro h
        exact absurd hmem h
    · rw [if_neg hmem]
      constructor
      · intro _
        exact hmem
      · intro _
        rfl
  refine ⟨hiff, ?_⟩
  intro h4 hdata hnone
  rw [hiff]
  intro hmem
  have hok : decodeCore data = .ok ((scannedBytes data).takeWhile (fun b => b != 0)) := by
    unfold decodeCore
    rw [if_pos hmem]
  exact hnone none data _ (decodeCore_ok_reencode data _ h4 hdata hok)

/-- C8 witness: the all-ones four-byte buffer is not the output of any
encode (its capacity, 3 bits, cannot even hold the framed terminator),
and decoding it fails with NoMessageFound. -/
theorem no_message_found_witness :
    decodeMessage none (List.replicate 4 1) = .error .noMessageFound :=
  (no_message_found_iff none (List.replicate 4 1)).2 (by decide) (by decide)
    (fun s img msg h => by
      obtain ⟨_, hcap, hlen⟩ := encodeMessage_ok_inv s h
      rw [framedMessage_length] at hcap
      have h4 : (List.replicate 4 1 : List Nat).length = 4 := by decide
      omega)

/-- C10: for every buffer of at least 3 pixels whose first eight
mapped R/G/B bytes all carry low bit 0, the first byte the scan
assembles is the 0x00 terminator, so no-key decode succeeds and
returns the empty message instead of raising NoMessageFound. -/
theorem decode_zero_prefix (data : List Nat) (hlen : 12 ≤ data.length)
    (h8 : ∀ k, k < 8 → bitAt data k = 0) :
    decodeMessage none data = .ok [] := by
  have hb0 : byteAt data 0 = 0 := by
    unfold byteAt
    rw [range_eight]
    simp only [List.map, Nat.mul_zero, Nat.zero_add]
    rw [h8 0 (by omega), h8 1 (by omega), h8 2 (by omega), h8 3 (by omega),
        h8 4 (by omega), h8 5 (by omega), h8 6 (by omega), h8 7 (by omega)]
    rfl
  have hg0 : (scannedBytes data).getD 0 0 = 0 := by
    rw [scannedBytes_getD data 0 (by unfold numScannedBits; omega), hb0]
  have hmem : (0 : Nat) ∈ scannedBytes data := by
    have h := getD_mem (scannedBytes data) 0
      (by rw [scannedBytes_length]; unfold numScannedBits; omega)
    rw [hg0] at h
    exact h
  unfold decodeMessage decodeCore
  rw [if_pos hmem]
  rw [takeWhile_eq_take (scannedBytes data) 0
    (by rw [scannedBytes_length]; unfold numScannedBits; omega)
    (fun k hk => absurd hk (by omega)) hg0]
  rfl

/-- C10 witness: the all-zero 12-byte buffer decodes to the empty
message. -/
theorem decode_zero_prefix_witness :
    decodeMessage none (List.replicate 12 0) = .ok [] :=
  decode_zero_prefix (List.replicate 12 0) (by decide) (by decide)

/-- C2 witness: the concrete 10 x 10 scenario, with the divisibility
premise discharged. -/
theorem capacity_gate_witness :
    encodeMessage none (List.replicate 400 0) (List.replicate 40 97) =
      .error (.capacityExceeded 37 41) :=
  (capacity_gate none (List.replicate 400 0) (List.replicate 40 97) (by decide)).2.2

/-- C6 witness: a concrete byte and bit, and a concrete encoded buffer
whose byte at offset 1 keeps its seven high bits. -/
theorem setBit_perturbation_witness :
    setBit 128 1 / 2 = 128 / 2
    ∧ ((encodeMessage none (List.replicate 24 7) [65]).toOption.getD []).getD 1 0 / 2
        = (List.replicate 24 7 : List Nat).getD 1 0 / 2 :=
  ⟨(setBit_perturbation 128 1 (by decide) (by decide)).2.1,
   ((setBit_perturbation 128 1 (by decide) (by decide)).2.2.2.2 none
      (List.replicate 24 7) [65]
      ((encodeMessage none (List.replicate 24 7) [65]).toOption.getD [])
      (by decide) (by decide) 1).1⟩

/-- C7 witness: the first alpha byte of a concrete encoded buffer
equals the input alpha byte. -/
theorem alpha_preserved_witness :
    ((encodeMessage none (List.replicate 24 7) [65]).toOption.getD []).getD 3 0
      = (List.replicate 24 7 : List Nat).getD 3 0 :=
  alpha_preserved none (List.replicate 24 7) [65]
    ((encodeMessage none (List.replicate 24 7) [65]).toOption.getD [])
    (by decide) 3 (by decide)

end StegaCipher
